import Mathlib

/-!
# Verification of the `proptest-semver` generator library

This development gives a shallow embedding of the generator core of the
`proptest-semver` crate (`src/lib.rs`) together with a model of the external
`semver` oracle (parser and value constructors), and proves the specified
properties about them.

Strings are modelled as `List Char`.  Rust `u64` values are modelled as `Nat`
together with explicit `< 2^64` bounds.  Each proptest generator is modelled
by its support: the set of values it can produce, as a predicate or inductive
family mirroring the strategy combinators used in the source
(`prop_oneof!` with weights, `prop::collection::vec` with a size range,
`prop::option::weighted`, regex-derived string strategies).
-/
/-- The `u64` overflow bound of the oracle: `2^64`. -/
def U64 : Nat := 18446744073709551616

/-! ## Character classes (ASCII, as in the `(?-u:...)` regexes of `lib.rs`) -/
/-- ASCII digit `\d`, i.e. `[0-9]` (code points 48–57). -/
def isDigitC (c : Char) : Bool := 48 ≤ c.toNat && c.toNat ≤ 57

/-- ASCII letter `[a-zA-Z]`. -/
def isAlphaC (c : Char) : Bool :=
  (65 ≤ c.toNat && c.toNat ≤ 90) || (97 ≤ c.toNat && c.toNat ≤ 122)

/-- The identifier alphabet `[0-9a-zA-Z-]` of pre-release and build metadata. -/
def isAlphaNumDash (c : Char) : Bool := isDigitC c || isAlphaC c || c.toNat = 45

/-- A nonzero ASCII digit `[1-9]`. -/
def isNonZeroDigit (c : Char) : Bool := 49 ≤ c.toNat && c.toNat ≤ 57

/-- Characters that may occur in the pre-release / build-metadata tail of a
version string: identifier characters and the separating dot. -/
def isIdentDotChar (c : Char) : Bool := isAlphaNumDash c || c.toNat = 46

/-! ## Decimal rendering of `Nat` (Rust `format!("{}", n)` on unsigned ints) -/
/-- One decimal digit character. -/
def decDigit : Nat → Char
  | 0 => '0' | 1 => '1' | 2 => '2' | 3 => '3' | 4 => '4'
  | 5 => '5' | 6 => '6' | 7 => '7' | 8 => '8' | _ => '9'

/-- Fuel-driven decimal rendering, most significant digit first. -/
def toDecimalFuel : Nat → Nat → List Char
  | 0, _ => []
  | fuel + 1, n =>
    if n < 10 then [decDigit n]
    else toDecimalFuel fuel (n / 10) ++ [decDigit (n % 10)]

/-- Decimal rendering of a natural number, as produced by Rust's `Display`
for unsigned integers. -/
def toDecimal (n : Nat) : List Char := toDecimalFuel (n + 1) n

/-- Reading a digit string back as a number (accumulator fold, as the oracle
parser accumulates). -/
def digitsToNat (l : List Char) : Nat :=
  l.foldl (fun a c => 10 * a + (c.toNat - 48)) 0

/-! ## Separator splitting and joining

`splitSep` models splitting a string at a separator character; `joinSep`
models Rust's `Vec<String>::join` with a one-character separator. -/
def splitSep (sep : Char) : List Char → List (List Char)
  | [] => [[]]
  | c :: rest =>
    if c = sep then [] :: splitSep sep rest
    else
      match splitSep sep rest with
      | s :: ss => (c :: s) :: ss
      | [] => [[c]]

def joinSep (sep : Char) : List (List Char) → List Char
  | [] => []
  | [s] => s
  | s :: ss => s ++ sep :: joinSep sep ss

/-! ## The regex languages for pre-release and build metadata

These mirror the pattern texts `ALWAYS_PRERELEASE_REGEX` and
`ALWAYS_BUILD_METADATA_REGEX` of `lib.rs` (ASCII mode): a pre-release is one
identifier from `0|[1-9]\d*|\d*[a-zA-Z-][0-9a-zA-Z-]*` followed by zero or
more `.`-separated identifiers of the same shape; build metadata uses
identifiers `[0-9a-zA-Z-]+`. -/
/-- The regex alternative `\d*[a-zA-Z-][0-9a-zA-Z-]*`: an optional run of
digits, then a letter or dash, then identifier characters. -/
def isPreIdentAlpha (l : List Char) : Bool :=
  match l.dropWhile isDigitC with
  | [] => false
  | c :: rest => (isAlphaC c || c.toNat = 45) && rest.all isAlphaNumDash

/-- The regex `0|[1-9]\d*`: a numeric component with no leading zero. -/
def isNumR : List Char → Bool
  | [] => false
  | c :: rest => (c.toNat = 48 && rest.isEmpty) || (isNonZeroDigit c && rest.all isDigitC)

/-- One pre-release identifier: the regex `0|[1-9]\d*|\d*[a-zA-Z-][0-9a-zA-Z-]*`. -/
def isPreIdentR (l : List Char) : Bool := isNumR l || isPreIdentAlpha l

/-- One build-metadata identifier: the regex `[0-9a-zA-Z-]+`. -/
def isBuildIdentR (l : List Char) : Bool := !l.isEmpty && l.all isAlphaNumDash

/-- The language of `ALWAYS_PRERELEASE_REGEX`: identifiers joined by dots.
This is the set of strings the `arb_pre_release_string` strategy can
produce. -/
inductive PreMatch : List Char → Prop
  | single (l : List Char) (h : isPreIdentR l = true) : PreMatch l
  | cons (l rest : List Char) (h : isPreIdentR l = true) (hr : PreMatch rest) :
      PreMatch (l ++ '.' :: rest)

/-- The language of `ALWAYS_BUILD_METADATA_REGEX`: the set of strings the
`arb_build_metadata_string` strategy can produce. -/
inductive BuildMatch : List Char → Prop
  | single (l : List Char) (h : isBuildIdentR l = true) : BuildMatch l
  | cons (l rest : List Char) (h : isBuildIdentR l = true) (hr : BuildMatch rest) :
      BuildMatch (l ++ '.' :: rest)

/-! ## The modelled oracle validators

Modelled from the spec: the oracle's `Prerelease` / `BuildMetadata`
constructors accept dot-separated sequences of nonempty `[0-9a-zA-Z-]`
identifiers, where a purely numeric pre-release identifier must not have a
leading zero; the empty string denotes the explicit empty value. -/
/-- Oracle validity of one pre-release identifier. -/
def validPreIdent (s : List Char) : Bool :=
  !s.isEmpty && s.all isAlphaNumDash &&
    !(s.all isDigitC && s.head? = some '0' && s.length != 1)

/-- Oracle validity of one build-metadata identifier. -/
def validBuildIdent (s : List Char) : Bool :=
  !s.isEmpty && s.all isAlphaNumDash

/-- Oracle validity of a nonempty pre-release string. -/
def validPre (l : List Char) : Bool := (splitSep '.' l).all validPreIdent

/-- Oracle validity of a nonempty build-metadata string. -/
def validBuild (l : List Char) : Bool := (splitSep '.' l).all validBuildIdent

/-- Modelled from the spec: `semver::Prerelease::new`, which succeeds exactly
on grammar-conformant pre-release strings (and on the empty string, giving
the explicit empty value). -/
def prereleaseNew (l : List Char) : Option (List Char) :=
  if l.isEmpty || validPre l then some l else none

/-- Modelled from the spec: `semver::BuildMetadata::new`. -/
def buildMetadataNew (l : List Char) : Option (List Char) :=
  if l.isEmpty || validBuild l then some l else none

/-! ## The modelled oracle `Version` parser

Modelled from the spec: the oracle parses `major.minor.patch` with optional
`-pre` and `+build` suffixes; numeric components are decimal with no leading
zero and must fit in a `u64`, and a component exceeding `u64::MAX` is the
one distinguished overflow failure. -/
/-- Parse-error causes of the modelled oracle.  `overflow` is the
distinguished "numeric component exceeds `u64::MAX`" cause; `excessive` is
the requirement parser's "more than 32 comparators" rejection; every other
rejection is `invalid`. -/
inductive PErr
  | invalid
  | overflow
  | excessive
deriving DecidableEq

/-- The oracle's structured `semver::Version` value.  Absent pre-release and
build metadata are the explicit empty string, as in the oracle. -/
structure SemVersion where
  major : Nat
  minor : Nat
  patch : Nat
  pre : List Char
  build : List Char
deriving DecidableEq

/-- Parse one numeric component: a maximal digit run, rejecting an empty
run or a leading zero, and reporting `overflow` past `u64::MAX`. -/
def parseNum (l : List Char) : Except PErr (Nat × List Char) :=
  match l.takeWhile isDigitC with
  | [] => .error .invalid
  | c :: ds =>
    if c.toNat = 48 && !ds.isEmpty then .error .invalid
    else if digitsToNat (c :: ds) < U64 then
      .ok (digitsToNat (c :: ds), l.dropWhile isDigitC)
    else .error .overflow

/-- Parse a build-metadata tail (after `+`): it must span the rest of the
input and be grammar-valid. -/
def parseBuildTail (l : List Char) : Except PErr (List Char) :=
  if (l.dropWhile isIdentDotChar).isEmpty && validBuild (l.takeWhile isIdentDotChar) then
    .ok (l.takeWhile isIdentDotChar)
  else .error .invalid

/-- Parse the optional `-pre` / `+build` tail of a version. -/
def parseTail : List Char → Except PErr (List Char × List Char)
  | [] => .ok ([], [])
  | '-' :: rest =>
    if validPre (rest.takeWhile isIdentDotChar) then
      match rest.dropWhile isIdentDotChar with
      | [] => .ok (rest.takeWhile isIdentDotChar, [])
      | '+' :: r2 =>
        (match parseBuildTail r2 with
         | .error e => .error e
         | .ok bd => .ok (rest.takeWhile isIdentDotChar, bd))
      | _ => .error .invalid
    else .error .invalid
  | '+' :: rest =>
    (match parseBuildTail rest with
     | .error e => .error e
     | .ok bd => .ok ([], bd))
  | _ => .error .invalid

/-- Modelled from the spec: the oracle's `semver::Version::parse`. -/
def parseVersion (l : List Char) : Except PErr SemVersion :=
  match parseNum l with
  | .error e => .error e
  | .ok (maj, l1) =>
    match l1 with
    | '.' :: l2 =>
      (match parseNum l2 with
       | .error e => .error e
       | .ok (mi, l3) =>
         match l3 with
         | '.' :: l4 =>
           (match parseNum l4 with
            | .error e => .error e
            | .ok (pa, l5) =>
              match parseTail l5 with
              | .error e => .error e
              | .ok (pr, bd) => .ok ⟨maj, mi, pa, pr, bd⟩)
         | _ => .error .invalid)
    | _ => .error .invalid

/-- The optional `-pre` / `+build` suffix, mirroring both the regex tail of
`SEMVER_REGEX` and the four `format!` arms of `arb_version_weighted`. -/
def optTail : Option (List Char) → Option (List Char) → List Char
  | none, none => []
  | none, some bm => '+' :: bm
  | some pr, none => '-' :: pr
  | some pr, some bm => '-' :: (pr ++ '+' :: bm)

/-- The string formatted by `arb_version_weighted`:
`major.minor.patch` with the optional suffixes. -/
def fmtVersion (a b c : Nat) (pr bm : Option (List Char)) : List Char :=
  toDecimal a ++ '.' :: (toDecimal b ++ '.' :: (toDecimal c ++ optTail pr bm))

/-- The language of `SEMVER_REGEX` from `lib.rs`: three numeric components
(arbitrary length, no leading zero) separated by dots, an optional `-pre`
and an optional `+build`.  This is the set of strings `arb_semver` can
produce. -/
inductive SemverMatch : List Char → Prop
  | mk (a b c : List Char) (pr bm : Option (List Char))
      (ha : isNumR a = true) (hb : isNumR b = true) (hc : isNumR c = true)
      (hpr : ∀ p ∈ pr, PreMatch p) (hbm : ∀ m ∈ bm, BuildMatch m) :
      SemverMatch (a ++ '.' :: (b ++ '.' :: (c ++ optTail pr bm)))

/-! ## ASCII-ness (Rust `str::is_ascii`) -/
/-- Rust's `char::is_ascii`: the code point is at most 127. -/
def isAsciiC (c : Char) : Bool := c.toNat ≤ 127

/-! ## The comparator data model of `lib.rs` and the oracle's `Op` -/
/-- The oracle's `semver::Op` operator type (eight variants, including
`Wildcard`). -/
inductive Op
  | Exact | Greater | GreaterEq | Less | LessEq | Tilde | Caret | Wildcard
deriving DecidableEq

/-- Rust `Option::unwrap_or`: the weight argument with its default. -/
def optW (w : Option Nat) (d : Nat) : Nat := w.getD d

/-- Support of `arb_semver_op(default_weight, wildcard_weight)`: a
`prop_oneof!` over the eight operators, the first seven weighted
`default_weight.unwrap_or(5)` and `Wildcard` weighted
`wildcard_weight.unwrap_or(1)`.  A branch is reachable exactly when its
weight is positive. -/
inductive OpProduced (dw ww : Option Nat) : Op → Prop
  | exact (h : 0 < optW dw 5) : OpProduced dw ww .Exact
  | greater (h : 0 < optW dw 5) : OpProduced dw ww .Greater
  | greaterEq (h : 0 < optW dw 5) : OpProduced dw ww .GreaterEq
  | less (h : 0 < optW dw 5) : OpProduced dw ww .Less
  | lessEq (h : 0 < optW dw 5) : OpProduced dw ww .LessEq
  | tilde (h : 0 < optW dw 5) : OpProduced dw ww .Tilde
  | caret (h : 0 < optW dw 5) : OpProduced dw ww .Caret
  | wildcard (h : 0 < optW ww 1) : OpProduced dw ww .Wildcard

/-- The source's `ComparatorOp` enum: a re-implementation of `semver::Op`
without the wildcard, derived `Arbitrary` (uniform over the seven
variants). -/
inductive ComparatorOp
  | Exact | Greater | GreaterEq | Less | LessEq | Tilde | Caret
deriving DecidableEq

/-- The `Display` impl for `ComparatorOp`. -/
def ComparatorOp.render : ComparatorOp → List Char
  | .Exact => ['=']
  | .Greater => ['>']
  | .GreaterEq => ['>', '=']
  | .Less => ['<']
  | .LessEq => ['<', '=']
  | .Tilde => ['~']
  | .Caret => ['^']

/-- The source's `FullComparator` enum.  The variants carry positional
fields, as the Rust tuple variants do; `WildcardPatch`'s two numeric
fields are bound as `major` and `patch` in the source's `Display` arm
while the generator supplies `(op, major, minor)`. -/
inductive FullComparator
  | Plain (op : ComparatorOp) (major minor patch : Nat)
      (pr bm : Option (List Char))
  | WildcardMinor (op : ComparatorOp) (major : Nat)
  | WildcardPatch (op : ComparatorOp) (major second : Nat)
  | Wildcard
deriving DecidableEq

/-- The `Display` impl for `FullComparator`:
`Plain` renders `op major.minor.patch[-pre][+build]`, `WildcardMinor`
renders `op major.*.*`, `WildcardPatch` renders its two numeric fields as
`op <first>.<second>.*`, and `Wildcard` renders `*`. -/
def FullComparator.render : FullComparator → List Char
  | .Plain op maj mi pa pr bm =>
      op.render ++ (toDecimal maj ++ '.' :: (toDecimal mi ++ '.' ::
        (toDecimal pa ++ optTail pr bm)))
  | .WildcardMinor op maj =>
      op.render ++ (toDecimal maj ++ ('.' :: '*' :: '.' :: '*' :: []))
  | .WildcardPatch op maj se =>
      op.render ++ (toDecimal maj ++ '.' :: (toDecimal se ++ ('.' :: '*' :: [])))
  | .Wildcard => ['*']

/-- The source's `ComparatorVec` enum: either a list of comparators or a
single bare wildcard. -/
inductive ComparatorVec
  | List (l : List FullComparator)
  | Wildcard
deriving DecidableEq

/-- The `Display` impl for `ComparatorVec`: `List` joins its elements'
renderings with `,`; `Wildcard` renders as `*`. -/
def renderCompVec : ComparatorVec → List Char
  | .List l => joinSep ',' (l.map FullComparator.render)
  | .Wildcard => ['*']

/-- Support of `arb_full_comparator(weight_of_plain, weight_of_wildcard_minor,
weight_of_wildcard_patch)`: the three `prop_oneof!` branches with
`unwrap_or` defaults 7, 1 and 1; a branch is reachable exactly when its
weight is positive.  Numeric fields come from `any::<u64>()`, the optional
pre-release and build-metadata strings from the weighted regex strategies.
The `Wildcard` variant appears in no branch. -/
inductive FullCompProduced (wp wwm wwp : Option Nat) : FullComparator → Prop
  | wildcardMinor (op : ComparatorOp) (maj : Nat)
      (h : 0 < optW wwm 1) (hm : maj < U64) :
      FullCompProduced wp wwm wwp (.WildcardMinor op maj)
  | wildcardPatch (op : ComparatorOp) (maj mi : Nat)
      (h : 0 < optW wwp 1) (hm : maj < U64) (hmi : mi < U64) :
      FullCompProduced wp wwm wwp (.WildcardPatch op maj mi)
  | plain (op : ComparatorOp) (maj mi pa : Nat) (pr bm : Option (List Char))
      (h : 0 < optW wp 7) (hm : maj < U64) (hmi : mi < U64) (hpa : pa < U64)
      (hpr : ∀ p ∈ pr, PreMatch p) (hbm : ∀ m ∈ bm, BuildMatch m) :
      FullCompProduced wp wwm wwp (.Plain op maj mi pa pr bm)

/-- Support of `arb_comparator_list(max_comparators)`:
`prop::collection::vec(arb_full_comparator(None, None, None), max_comparators)`
with a plain `usize` size argument, which in proptest is the exact size. -/
def ComparatorListProduced (maxC : Nat) (l : List FullComparator) : Prop :=
  l.length = maxC ∧ ∀ fc ∈ l, FullCompProduced none none none fc

/-- Support of `arb_full_comparator_vec(max_comparators, weight_of_wildcard,
weight_of_comparator_list)`: a `prop_oneof!` between the bare wildcard
(weight `unwrap_or(1)`) and a comparator list (weight `unwrap_or(14)`). -/
inductive CompVecProduced (maxC : Nat) (ww wl : Option Nat) : ComparatorVec → Prop
  | wildcard (h : 0 < optW ww 1) : CompVecProduced maxC ww wl .Wildcard
  | list (l : List FullComparator) (h : 0 < optW wl 14)
      (hl : ComparatorListProduced maxC l) :
      CompVecProduced maxC ww wl (.List l)

/-- The oracle's structured `semver::Comparator`: operator, required major,
optional minor and patch, and a pre-release (the empty string meaning
absent).  There is no build-metadata field. -/
structure SemverComparator where
  op : Op
  major : Nat
  minor : Option Nat
  patch : Option Nat
  pre : List Char
deriving DecidableEq

/-- Support of `arb_semver_comparator()`: operator from
`arb_semver_op(None, None)`, `major` from `any::<u64>()`, `minor` and
`patch` from `any::<Option<u64>>()`, and `pre` built by
`arb_semver_prerelease()` from the `ALWAYS_PRERELEASE_REGEX` language. -/
def SemverComparatorProduced (c : SemverComparator) : Prop :=
  OpProduced none none c.op ∧ c.major < U64 ∧
    (∀ n ∈ c.minor, n < U64) ∧ (∀ n ∈ c.patch, n < U64) ∧ PreMatch c.pre

/-- Support of `arb_version_weighted` (and of `arb_version`, which calls it
with both probabilities 0.5): the value is the oracle's parse of the
formatted `major.minor.patch[-pre][+build]` string. -/
def VersionWeightedProduced (v : SemVersion) : Prop :=
  ∃ a b c pr bm, a < U64 ∧ b < U64 ∧ c < U64 ∧
    (∀ p ∈ pr, PreMatch p) ∧ (∀ m ∈ bm, BuildMatch m) ∧
    parseVersion (fmtVersion a b c pr bm) = .ok v

/-- Support of `arb_semver_version`: direct struct construction with
`unwrap_or`-empty pre-release and build metadata. -/
def SemverVersionProduced (v : SemVersion) : Prop :=
  v.major < U64 ∧ v.minor < U64 ∧ v.patch < U64 ∧
    (v.pre = [] ∨ PreMatch v.pre) ∧ (v.build = [] ∨ BuildMatch v.build)

/-- Support of `arb_vec_versions(max_len)`:
`prop::collection::vec(arb_version(), 1..max_len)`, whose size range is
`1` inclusive to `max_len` exclusive. -/
def VecVersionsProduced (maxLen : Nat) (l : List SemVersion) : Prop :=
  1 ≤ l.length ∧ l.length < maxLen ∧ ∀ v ∈ l, VersionWeightedProduced v

/-- Support of `arb_vec_semver_versions(max_len)`:
`prop::collection::vec(arb_semver_version(), 1..max_len)`. -/
def VecSemverVersionsProduced (maxLen : Nat) (l : List SemVersion) : Prop :=
  1 ≤ l.length ∧ l.length < maxLen ∧ ∀ v ∈ l, SemverVersionProduced v

/-- Support of `arb_vec_semver_comparator(max_len)`:
`prop::collection::vec(arb_semver_comparator(), 1..max_len)`. -/
def VecSemverComparatorProduced (maxLen : Nat) (l : List SemverComparator) : Prop :=
  1 ≤ l.length ∧ l.length < maxLen ∧ ∀ c ∈ l, SemverComparatorProduced c

/-- Support of `arb_vec_comparator_string(max_len)`:
`prop::collection::vec` over rendered `arb_full_comparator(None, None, None)`
values, size range `1..max_len`. -/
def VecComparatorStringProduced (maxLen : Nat) (l : List (List Char)) : Prop :=
  1 ≤ l.length ∧ l.length < maxLen ∧
    ∀ s ∈ l, ∃ fc, FullCompProduced none none none fc ∧ s = fc.render

/-! ## The modelled oracle `VersionReq` parser (as an acceptor)

Modelled from the spec: a requirement string is either the single bare
wildcard `*` or a comma-joined nonempty sequence of comparators, each of
the form `op major[.minor[.patch[-pre][+build]]]` with `*` allowed in the
trailing positions; at most 32 comparators are accepted. -/
/-- Strip one leading `=` (the second character of `>=` / `<=`). -/
def stripEq (l : List Char) : List Char :=
  match l with
  | c :: rest => if c = '=' then rest else c :: rest
  | [] => []

/-- Consume a leading comparison operator, if present; a missing operator
is legal (the oracle defaults it). -/
def parseOp : List Char → List Char
  | '>' :: rest => stripEq rest
  | '<' :: rest => stripEq rest
  | '=' :: rest => rest
  | '~' :: rest => rest
  | '^' :: rest => rest
  | l => l

/-- Parse what follows `major.minor.`: either the patch wildcard `*` or a
numeric patch with the optional pre-release / build-metadata tail. -/
def parsePatchTail (l5 : List Char) : Except PErr Unit :=
  if l5 = ['*'] then .ok ()
  else
    match parseNum l5 with
    | .error e => .error e
    | .ok (_, l6) =>
      match parseTail l6 with
      | .error e => .error e
      | .ok _ => .ok ()

/-- Parse what follows `major.`: the minor wildcard (`*` or `*.*`), or a
numeric minor optionally followed by `.` and the patch part. -/
def parseMinorTail (l3 : List Char) : Except PErr Unit :=
  if l3 = ['*'] ∨ l3 = ['*', '.', '*'] then .ok ()
  else
    match parseNum l3 with
    | .error e => .error e
    | .ok (_, l4) =>
      match l4 with
      | [] => .ok ()
      | '.' :: l5 => parsePatchTail l5
      | _ => .error .invalid

/-- Modelled from the spec: parse one comparator of a requirement string. -/
def parseComparator (l : List Char) : Except PErr Unit :=
  match parseNum (parseOp l) with
  | .error e => .error e
  | .ok (_, l2) =>
    match l2 with
    | [] => .ok ()
    | '.' :: l3 => parseMinorTail l3
    | _ => .error .invalid

/-- The oracle's undocumented comparator cap, re-encoded in `lib.rs`. -/
def MAX_COMPARATORS_IN_VERSION_REQ_STRING : Nat := 32

/-- Accept every comparator of the split requirement string. -/
def comparatorsOk : List (List Char) → Except PErr Unit
  | [] => .ok ()
  | s :: rest =>
    match parseComparator s with
    | .error e => .error e
    | .ok _ => comparatorsOk rest

/-- Modelled from the spec: the oracle's `semver::VersionReq::parse` as an
acceptor.  A lone `*` is the wildcard requirement; otherwise the input
splits at `,` into comparators — so the empty string fails, as parsing an
empty comparator fails — and more than 32 comparators are rejected as
`excessive`. -/
def parseVersionReq (l : List Char) : Except PErr Unit :=
  if l = ['*'] then .ok ()
  else if MAX_COMPARATORS_IN_VERSION_REQ_STRING < (splitSep ',' l).length then
    .error .excessive
  else comparatorsOk (splitSep ',' l)

/-- The spec's wording for the `WildcardPatch` textual form: operator, the
major field, a dot, the minor (the variant's second numeric field), then
`.*`. -/
def wildcardPatchSpecForm (op : ComparatorOp) (major minor : Nat) : List Char :=
  op.render ++ toDecimal major ++ '.' :: toDecimal minor ++ ('.' :: '*' :: [])

theorem ne_of_toNat_ne {a b : Char} (h : a.toNat ≠ b.toNat) : a ≠ b :=
  fun he => h (he ▸ rfl)

theorem isDigitC_toNat {c : Char} (h : isDigitC c = true) :
    48 ≤ c.toNat ∧ c.toNat ≤ 57 := by
  simpa [isDigitC] using h

theorem isAlphaNumDash_toNat {c : Char} (h : isAlphaNumDash c = true) :
    (48 ≤ c.toNat ∧ c.toNat ≤ 57) ∨ (65 ≤ c.toNat ∧ c.toNat ≤ 90) ∨
    (97 ≤ c.toNat ∧ c.toNat ≤ 122) ∨ c.toNat = 45 := by
  simp [isAlphaNumDash, isDigitC, isAlphaC] at h
  omega

theorem isIdentDotChar_toNat {c : Char} (h : isIdentDotChar c = true) :
    c.toNat ≤ 122 := by
  simp [isIdentDotChar] at h
  rcases h with h | h
  · rcases isAlphaNumDash_toNat h with h | h | h | h <;> omega
  · omega

theorem isAlphaNumDash_of_digit {c : Char} (h : isDigitC c = true) :
    isAlphaNumDash c = true := by
  simp [isAlphaNumDash, h]

theorem isIdentDotChar_of_alphaNumDash {c : Char} (h : isAlphaNumDash c = true) :
    isIdentDotChar c = true := by
  simp [isIdentDotChar, h]

theorem not_digit_of_toNat {c : Char} (h : ¬ (48 ≤ c.toNat ∧ c.toNat ≤ 57)) :
    isDigitC c = false := by
  simp [isDigitC]
  omega

theorem decDigit_toNat {n : Nat} (h : n < 10) : (decDigit n).toNat = 48 + n := by
  interval_cases n <;> decide

theorem decDigit_isDigit {n : Nat} (h : n < 10) : isDigitC (decDigit n) = true := by
  simp [isDigitC, decDigit_toNat h]
  omega

theorem toDecimalFuel_extra : ∀ (f₁ f₂ n : Nat), n < f₁ → n < f₂ →
    toDecimalFuel f₁ n = toDecimalFuel f₂ n := by
  intro f₁
  induction f₁ with
  | zero => intro f₂ n h; omega
  | succ f ih =>
    intro f₂ n h₁ h₂
    cases f₂ with
    | zero => omega
    | succ g =>
      simp only [toDecimalFuel]
      by_cases hn : n < 10
      · simp [hn]
      · simp only [hn, if_false]
        rw [ih g (n / 10) (by omega) (by omega)]

/-- Unfolding equation for `toDecimal`. -/
theorem toDecimal_eq (n : Nat) :
    toDecimal n = if n < 10 then [decDigit n]
      else toDecimal (n / 10) ++ [decDigit (n % 10)] := by
  show toDecimalFuel (n + 1) n = _
  by_cases hn : n < 10
  · simp [toDecimalFuel, hn]
  · simp only [toDecimalFuel, hn, if_false]
    rw [toDecimalFuel_extra n (n / 10 + 1) (n / 10) (by omega) (by omega)]
    rfl

theorem toDecimal_ne_nil (n : Nat) : toDecimal n ≠ [] := by
  rw [toDecimal_eq]
  by_cases hn : n < 10 <;> simp [hn]

theorem toDecimal_all_digit (n : Nat) : ∀ c ∈ toDecimal n, isDigitC c = true := by
  induction n using Nat.strongRecOn with
  | _ n ih =>
    rw [toDecimal_eq]
    by_cases hn : n < 10
    · simpa [hn] using decDigit_isDigit hn
    · simp only [hn, if_false]
      intro c hc
      rcases List.mem_append.mp hc with h | h
      · exact ih (n / 10) (by omega) c h
      · simp at h
        subst h
        exact decDigit_isDigit (Nat.mod_lt _ (by omega))

theorem toDecimal_head_ne_zero {n : Nat} (hn : n ≠ 0) :
    ∀ c ∈ (toDecimal n).head?, c.toNat ≠ 48 := by
  induction n using Nat.strongRecOn with
  | _ n ih =>
    rw [toDecimal_eq]
    by_cases h10 : n < 10
    · simp only [h10, if_true, List.head?]
      intro c hc
      simp at hc
      subst hc
      rw [decDigit_toNat h10]
      omega
    · simp only [h10, if_false]
      rcases List.exists_cons_of_ne_nil (toDecimal_ne_nil (n / 10)) with ⟨d, rest, hd⟩
      rw [hd]
      intro c hc
      simp at hc
      subst hc
      have := ih (n / 10) (by omega) (by omega) d
      rw [hd] at this
      simpa using this

theorem digitsToNat_append_digit (l : List Char) (c : Char) :
    digitsToNat (l ++ [c]) = 10 * digitsToNat l + (c.toNat - 48) := by
  simp [digitsToNat, List.foldl_append]

theorem digitsToNat_toDecimal (n : Nat) : digitsToNat (toDecimal n) = n := by
  induction n using Nat.strongRecOn with
  | _ n ih =>
    rw [toDecimal_eq]
    by_cases hn : n < 10
    · simp [hn, digitsToNat, decDigit_toNat hn]
    · simp only [hn, if_false]
      rw [digitsToNat_append_digit, ih (n / 10) (by omega),
        decDigit_toNat (Nat.mod_lt _ (by omega))]
      omega

/-! ## `takeWhile` / `dropWhile` over appends -/
theorem takeWhile_app {p : Char → Bool} {xs ys : List Char}
    (h : ∀ c ∈ xs, p c = true) (h2 : ∀ c ∈ ys.head?, p c = false) :
    (xs ++ ys).takeWhile p = xs := by
  induction xs with
  | nil =>
    simp only [List.nil_append]
    cases ys with
    | nil => rfl
    | cons y ys =>
      have := h2 y (by simp)
      simp [List.takeWhile, this]
  | cons x xs ih =>
    have hx := h x (by simp)
    simp only [List.cons_append, List.takeWhile, hx, List.append_eq]
    rw [ih (fun c hc => h c (by simp [hc]))]

theorem dropWhile_app {p : Char → Bool} {xs ys : List Char}
    (h : ∀ c ∈ xs, p c = true) (h2 : ∀ c ∈ ys.head?, p c = false) :
    (xs ++ ys).dropWhile p = ys := by
  induction xs with
  | nil =>
    simp only [List.nil_append]
    cases ys with
    | nil => rfl
    | cons y ys =>
      have := h2 y (by simp)
      simp [List.dropWhile, this]
  | cons x xs ih =>
    have hx := h x (by simp)
    simp only [List.cons_append, List.dropWhile, hx, List.append_eq]
    exact ih (fun c hc => h c (by simp [hc]))

theorem takeWhile_all {p : Char → Bool} {xs : List Char}
    (h : ∀ c ∈ xs, p c = true) : xs.takeWhile p = xs := by
  have := @takeWhile_app p xs [] h (by simp)
  simpa using this

theorem dropWhile_all {p : Char → Bool} {xs : List Char}
    (h : ∀ c ∈ xs, p c = true) : xs.dropWhile p = [] := by
  have := @dropWhile_app p xs [] h (by simp)
  simpa using this

theorem splitSep_ne_nil (sep : Char) (l : List Char) : splitSep sep l ≠ [] := by
  induction l with
  | nil => simp [splitSep]
  | cons c rest ih =>
    simp only [splitSep]
    by_cases hc : c = sep
    · simp [hc]
    · simp only [hc, if_false]
      rcases h : splitSep sep rest with _ | ⟨s, ss⟩
      · exact absurd h ih
      · simp

theorem joinSep_cons (sep : Char) (s t : List Char) (ss : List (List Char)) :
    joinSep sep (s :: t :: ss) = s ++ sep :: joinSep sep (t :: ss) := rfl

theorem splitSep_single {sep : Char} {s : List Char}
    (h : ∀ c ∈ s, c ≠ sep) : splitSep sep s = [s] := by
  induction s with
  | nil => rfl
  | cons c rest ih =>
    have hc : c ≠ sep := h c (by simp)
    simp only [splitSep, hc, if_false]
    rw [ih (fun d hd => h d (by simp [hd]))]

theorem splitSep_append {sep : Char} {s rest : List Char}
    (h : ∀ c ∈ s, c ≠ sep) :
    splitSep sep (s ++ sep :: rest) = s :: splitSep sep rest := by
  induction s with
  | nil => simp [splitSep]
  | cons c t ih =>
    have hc : c ≠ sep := h c (by simp)
    simp only [List.cons_append, splitSep, hc, if_false, List.append_eq]
    rw [ih (fun d hd => h d (by simp [hd]))]

theorem splitSep_joinSep {sep : Char} :
    ∀ {ss : List (List Char)}, ss ≠ [] → (∀ s ∈ ss, ∀ c ∈ s, c ≠ sep) →
    splitSep sep (joinSep sep ss) = ss
  | [], h, _ => absurd rfl h
  | [s], _, hall => by
    simp only [joinSep]
    exact splitSep_single (hall s (by simp))
  | s :: t :: ss, _, hall => by
    rw [joinSep_cons, splitSep_append (hall s (by simp))]
    rw [splitSep_joinSep (by simp) (fun u hu => hall u (by simp [hu]))]

/-! ### The regex languages are accepted by the oracle validators -/
theorem isNumR_cases {l : List Char} (h : isNumR l = true) :
    (∃ c, l = [c] ∧ c.toNat = 48) ∨
    ∃ c rest, l = c :: rest ∧ 49 ≤ c.toNat ∧ c.toNat ≤ 57 ∧
      ∀ d ∈ rest, isDigitC d = true := by
  cases l with
  | nil => simp [isNumR] at h
  | cons c rest =>
    simp only [isNumR, Bool.or_eq_true, Bool.and_eq_true, decide_eq_true_eq,
      List.isEmpty_iff, isNonZeroDigit, List.all_eq_true] at h
    rcases h with ⟨h48, hrest⟩ | ⟨⟨h1, h2⟩, hall⟩
    · exact Or.inl ⟨c, by rw [hrest], h48⟩
    · exact Or.inr ⟨c, rest, rfl, h1, h2, hall⟩

theorem isNumR_all_digit {l : List Char} (h : isNumR l = true) :
    ∀ c ∈ l, isDigitC c = true := by
  rcases isNumR_cases h with ⟨c, rfl, hc⟩ | ⟨c, rest, rfl, h1, h2, hall⟩
  · intro d hd
    simp at hd
    subst hd
    simp [isDigitC]
    omega
  · intro d hd
    rcases List.mem_cons.mp hd with rfl | hd
    · simp [isDigitC]
      omega
    · exact hall d hd

theorem isNumR_ne_nil {l : List Char} (h : isNumR l = true) : l ≠ [] := by
  cases l with
  | nil => simp [isNumR] at h
  | cons c rest => simp

theorem isPreIdentAlpha_cases {l : List Char} (h : isPreIdentAlpha l = true) :
    ∃ c rest, l.dropWhile isDigitC = c :: rest ∧
      (isAlphaC c = true ∨ c.toNat = 45) ∧ ∀ d ∈ rest, isAlphaNumDash d = true := by
  simp only [isPreIdentAlpha] at h
  rcases hsplit : l.dropWhile isDigitC with _ | ⟨c, rest⟩
  · rw [hsplit] at h
    simp at h
  · rw [hsplit] at h
    simp only [Bool.and_eq_true, Bool.or_eq_true, decide_eq_true_eq,
      List.all_eq_true] at h
    exact ⟨c, rest, rfl, h.1, h.2⟩

theorem isPreIdentR_all {l : List Char} (h : isPreIdentR l = true) :
    ∀ c ∈ l, isAlphaNumDash c = true := by
  simp only [isPreIdentR, Bool.or_eq_true] at h
  rcases h with h | h
  · exact fun c hc => isAlphaNumDash_of_digit (isNumR_all_digit h c hc)
  · rcases isPreIdentAlpha_cases h with ⟨c, rest, hsplit, hc, hall⟩
    intro d hd
    have hl : l = l.takeWhile isDigitC ++ c :: rest := by
      rw [← hsplit, List.takeWhile_append_dropWhile]
    rw [hl] at hd
    rcases List.mem_append.mp hd with hmem | hmem
    · exact isAlphaNumDash_of_digit (List.mem_takeWhile_imp hmem)
    · rcases List.mem_cons.mp hmem with rfl | hmem
      · rcases hc with hh | hh
        · simp [isAlphaNumDash, hh]
        · simp [isAlphaNumDash, hh]
      · exact hall d hmem

theorem isPreIdentR_ne_nil {l : List Char} (h : isPreIdentR l = true) : l ≠ [] := by
  intro he
  subst he
  simp [isPreIdentR, isNumR, isPreIdentAlpha, List.dropWhile] at h

theorem validPreIdent_of_isPreIdentR {l : List Char} (h : isPreIdentR l = true) :
    validPreIdent l = true := by
  have hne := isPreIdentR_ne_nil h
  have hall := isPreIdentR_all h
  have h0 : ('0').toNat = 48 := by decide
  simp only [validPreIdent, Bool.and_eq_true, Bool.not_eq_true']
  refine ⟨⟨by simpa [List.isEmpty_iff] using hne, List.all_eq_true.mpr hall⟩, ?_⟩
  simp only [isPreIdentR, Bool.or_eq_true] at h
  rcases h with h | h
  · rcases isNumR_cases h with ⟨c, rfl, hc⟩ | ⟨c, rest, rfl, h1, h2, hrest⟩
    · simp
    · have : c ≠ '0' := ne_of_toNat_ne (by omega)
      simp [this]
  · rcases isPreIdentAlpha_cases h with ⟨c, rest, hsplit, hc, hrest⟩
    have hcl : c ∈ l := by
      have hl : l = l.takeWhile isDigitC ++ c :: rest := by
        rw [← hsplit, List.takeWhile_append_dropWhile]
      rw [hl]
      exact List.mem_append_right _ (by simp)
    have hcd : isDigitC c = false := by
      apply not_digit_of_toNat
      rcases hc with hh | hh
      · simp only [isAlphaC, Bool.or_eq_true, Bool.and_eq_true,
          decide_eq_true_eq] at hh
        omega
      · omega
    have hld : l.all isDigitC = false := by
      by_contra hb
      rw [Bool.not_eq_false] at hb
      have := (List.all_eq_true.mp hb) c hcl
      rw [hcd] at this
      exact Bool.false_ne_true this
    simp [hld]

theorem preMatch_all {l : List Char} (h : PreMatch l) :
    ∀ c ∈ l, isIdentDotChar c = true := by
  induction h with
  | single s hs =>
    exact fun c hc => isIdentDotChar_of_alphaNumDash (isPreIdentR_all hs c hc)
  | cons s rest hs hr ih =>
    intro c hc
    rcases List.mem_append.mp hc with hm | hm
    · exact isIdentDotChar_of_alphaNumDash (isPreIdentR_all hs c hm)
    · simp at hm
      rcases hm with hm | hm
      · subst hm
        decide
      · exact ih c hm

theorem preMatch_ne_nil {l : List Char} (h : PreMatch l) : l ≠ [] := by
  induction h with
  | single s hs => exact isPreIdentR_ne_nil hs
  | cons s rest hs hr ih =>
    intro he
    simp at he

theorem validPre_of_preMatch {l : List Char} (h : PreMatch l) : validPre l = true := by
  induction h with
  | single s hs =>
    have hnd : ∀ c ∈ s, c ≠ '.' := by
      intro c hc
      have := isAlphaNumDash_toNat (isPreIdentR_all hs c hc)
      apply ne_of_toNat_ne
      have : ('.').toNat = 46 := by decide
      omega
    simp [validPre, splitSep_single hnd, validPreIdent_of_isPreIdentR hs]
  | cons s rest hs hr ih =>
    have hnd : ∀ c ∈ s, c ≠ '.' := by
      intro c hc
      have := isAlphaNumDash_toNat (isPreIdentR_all hs c hc)
      apply ne_of_toNat_ne
      have : ('.').toNat = 46 := by decide
      omega
    simp only [validPre, splitSep_append hnd, List.all_cons, Bool.and_eq_true]
    exact ⟨validPreIdent_of_isPreIdentR hs, by simpa [validPre] using ih⟩

theorem isBuildIdentR_all {l : List Char} (h : isBuildIdentR l = true) :
    ∀ c ∈ l, isAlphaNumDash c = true := by
  simp only [isBuildIdentR, Bool.and_eq_true] at h
  exact List.all_eq_true.mp h.2

theorem buildMatch_all {l : List Char} (h : BuildMatch l) :
    ∀ c ∈ l, isIdentDotChar c = true := by
  induction h with
  | single s hs =>
    exact fun c hc => isIdentDotChar_of_alphaNumDash (isBuildIdentR_all hs c hc)
  | cons s rest hs hr ih =>
    intro c hc
    rcases List.mem_append.mp hc with hm | hm
    · exact isIdentDotChar_of_alphaNumDash (isBuildIdentR_all hs c hm)
    · simp at hm
      rcases hm with hm | hm
      · subst hm
        decide
      · exact ih c hm

theorem validBuild_of_buildMatch {l : List Char} (h : BuildMatch l) :
    validBuild l = true := by
  induction h with
  | single s hs =>
    have hnd : ∀ c ∈ s, c ≠ '.' := by
      intro c hc
      have := isAlphaNumDash_toNat (isBuildIdentR_all hs c hc)
      apply ne_of_toNat_ne
      have : ('.').toNat = 46 := by decide
      omega
    have hv : validBuildIdent s = true := by
      simp only [isBuildIdentR, Bool.and_eq_true] at hs
      simp [validBuildIdent, hs.1, hs.2]
    simp [validBuild, splitSep_single hnd, hv]
  | cons s rest hs hr ih =>
    have hnd : ∀ c ∈ s, c ≠ '.' := by
      intro c hc
      have := isAlphaNumDash_toNat (isBuildIdentR_all hs c hc)
      apply ne_of_toNat_ne
      have : ('.').toNat = 46 := by decide
      omega
    have hv : validBuildIdent s = true := by
      simp only [isBuildIdentR, Bool.and_eq_true] at hs
      simp [validBuildIdent, hs.1, hs.2]
    simp only [validBuild, splitSep_append hnd, List.all_cons, Bool.and_eq_true]
    exact ⟨hv, by simpa [validBuild] using ih⟩

/-! ### Round-trip lemmas for the version parser -/
theorem parseNum_app {a rest : List Char} (ha : isNumR a = true)
    (hrest : ∀ c ∈ rest.head?, isDigitC c = false) :
    parseNum (a ++ rest) =
      if digitsToNat a < U64 then .ok (digitsToNat a, rest) else .error .overflow := by
  have htake : (a ++ rest).takeWhile isDigitC = a :=
    takeWhile_app (isNumR_all_digit ha) hrest
  have hdrop : (a ++ rest).dropWhile isDigitC = rest :=
    dropWhile_app (isNumR_all_digit ha) hrest
  rcases isNumR_cases ha with ⟨c, rfl, hc⟩ | ⟨c, ds, rfl, h1, h2, hall⟩
  · simp only [parseNum, htake, hdrop]
    simp
  · simp only [parseNum, htake, hdrop]
    have hne : c.toNat ≠ 48 := by omega
    simp [hne]

theorem isNumR_toDecimal (n : Nat) : isNumR (toDecimal n) = true := by
  rcases Nat.eq_zero_or_pos n with rfl | hn
  · decide
  · rcases List.exists_cons_of_ne_nil (toDecimal_ne_nil n) with ⟨c, rest, hd⟩
    have hall := toDecimal_all_digit n
    have hhead := toDecimal_head_ne_zero (by omega : n ≠ 0)
    rw [hd] at hall hhead ⊢
    have hc : isDigitC c = true := hall c (by simp)
    have hc48 : c.toNat ≠ 48 := hhead c (by simp)
    have := isDigitC_toNat hc
    simp only [isNumR, Bool.or_eq_true, Bool.and_eq_true]
    right
    constructor
    · simp only [isNonZeroDigit, Bool.and_eq_true, decide_eq_true_eq]
      omega
    · exact List.all_eq_true.mpr (fun d hd2 => hall d (by simp [hd2]))

theorem parseNum_toDecimal {n : Nat} (hn : n < U64) {rest : List Char}
    (hrest : ∀ c ∈ rest.head?, isDigitC c = false) :
    parseNum (toDecimal n ++ rest) = .ok (n, rest) := by
  rw [parseNum_app (isNumR_toDecimal n) hrest, digitsToNat_toDecimal]
  simp [hn]

theorem optTail_head_not_digit (pr bm : Option (List Char)) :
    ∀ c ∈ (optTail pr bm).head?, isDigitC c = false := by
  cases pr <;> cases bm <;> intro c hc <;> simp [optTail] at hc <;> subst hc <;> decide

theorem parseBuildTail_roundtrip {m : List Char} (hm : BuildMatch m) :
    parseBuildTail m = .ok m := by
  have hall := buildMatch_all hm
  simp only [parseBuildTail]
  rw [takeWhile_all hall, dropWhile_all hall]
  simp [validBuild_of_buildMatch hm]

theorem parseTail_roundtrip (pr bm : Option (List Char))
    (hp : ∀ p ∈ pr, PreMatch p) (hb : ∀ m ∈ bm, BuildMatch m) :
    parseTail (optTail pr bm) = .ok (pr.getD [], bm.getD []) := by
  cases pr with
  | none =>
    cases bm with
    | none => rfl
    | some m =>
      have hm := hb m (by simp)
      simp [optTail, parseTail, parseBuildTail_roundtrip hm]
  | some p =>
    have hp2 := hp p (by simp)
    have hallp := preMatch_all hp2
    cases bm with
    | none =>
      simp only [optTail, parseTail]
      rw [takeWhile_all hallp, dropWhile_all hallp]
      simp [validPre_of_preMatch hp2]
    | some m =>
      have hm := hb m (by simp)
      have hplus : ∀ c ∈ (('+' :: m) : List Char).head?, isIdentDotChar c = false := by
        intro c hc
        simp at hc
        subst hc
        decide
      simp only [optTail, parseTail]
      rw [takeWhile_app hallp hplus, dropWhile_app hallp hplus]
      simp [validPre_of_preMatch hp2, parseBuildTail_roundtrip hm]

theorem parseVersion_fmt {a b c : Nat} (ha : a < U64) (hb : b < U64) (hc : c < U64)
    (pr bm : Option (List Char))
    (hp : ∀ p ∈ pr, PreMatch p) (hm : ∀ m ∈ bm, BuildMatch m) :
    parseVersion (fmtVersion a b c pr bm) = .ok ⟨a, b, c, pr.getD [], bm.getD []⟩ := by
  have hdot : ∀ x : List Char, ∀ ch ∈ (('.' :: x) : List Char).head?, isDigitC ch = false := by
    intro x ch hch
    simp at hch
    subst hch
    decide
  have h1 : parseNum (toDecimal a ++ '.' :: (toDecimal b ++ '.' :: (toDecimal c ++ optTail pr bm)))
      = .ok (a, '.' :: (toDecimal b ++ '.' :: (toDecimal c ++ optTail pr bm))) :=
    parseNum_toDecimal ha (hdot _)
  have h2 : parseNum (toDecimal b ++ '.' :: (toDecimal c ++ optTail pr bm))
      = .ok (b, '.' :: (toDecimal c ++ optTail pr bm)) :=
    parseNum_toDecimal hb (hdot _)
  have h3 : parseNum (toDecimal c ++ optTail pr bm) = .ok (c, optTail pr bm) :=
    parseNum_toDecimal hc (optTail_head_not_digit pr bm)
  simp only [fmtVersion, parseVersion, h1, h2, h3, parseTail_roundtrip pr bm hp hm]

theorem isAsciiC_of_identDot {c : Char} (h : isIdentDotChar c = true) :
    isAsciiC c = true := by
  have := isIdentDotChar_toNat h
  simp [isAsciiC]
  omega

theorem isAsciiC_of_digit {c : Char} (h : isDigitC c = true) : isAsciiC c = true := by
  have := isDigitC_toNat h
  simp [isAsciiC]
  omega

theorem semverMatch_ascii {a b c : List Char} {pr bm : Option (List Char)}
    (ha : isNumR a = true) (hb : isNumR b = true) (hc : isNumR c = true)
    (hp : ∀ p ∈ pr, PreMatch p) (hm : ∀ m ∈ bm, BuildMatch m) :
    ∀ ch ∈ a ++ '.' :: (b ++ '.' :: (c ++ optTail pr bm)), isAsciiC ch = true := by
  have htail : ∀ ch ∈ optTail pr bm, isAsciiC ch = true := by
    cases pr with
    | none =>
      cases bm with
      | none => simp [optTail]
      | some m =>
        intro ch hch
        simp only [optTail, List.mem_cons] at hch
        rcases hch with rfl | hch
        · decide
        · exact isAsciiC_of_identDot (buildMatch_all (hm m (by simp)) ch hch)
    | some p =>
      cases bm with
      | none =>
        intro ch hch
        simp only [optTail, List.mem_cons] at hch
        rcases hch with rfl | hch
        · decide
        · exact isAsciiC_of_identDot (preMatch_all (hp p (by simp)) ch hch)
      | some m =>
        intro ch hch
        simp only [optTail, List.mem_cons, List.mem_append] at hch
        rcases hch with rfl | hch | rfl | hch2
        · decide
        · exact isAsciiC_of_identDot (preMatch_all (hp p (by simp)) ch hch)
        · decide
        · exact isAsciiC_of_identDot (buildMatch_all (hm m (by simp)) ch hch2)
  intro ch hch
  rcases List.mem_append.mp hch with hch | hch
  · exact isAsciiC_of_digit (isNumR_all_digit ha ch hch)
  · rcases List.mem_cons.mp hch with rfl | hch
    · decide
    · rcases List.mem_append.mp hch with hch | hch
      · exact isAsciiC_of_digit (isNumR_all_digit hb ch hch)
      · rcases List.mem_cons.mp hch with rfl | hch
        · decide
        · rcases List.mem_append.mp hch with hch | hch
          · exact isAsciiC_of_digit (isNumR_all_digit hc ch hch)
          · exact htail ch hch

theorem parseVersion_semverMatch {a b c : List Char} {pr bm : Option (List Char)}
    (ha : isNumR a = true) (hb : isNumR b = true) (hc : isNumR c = true)
    (hp : ∀ p ∈ pr, PreMatch p) (hm : ∀ m ∈ bm, BuildMatch m) :
    (∃ v, parseVersion (a ++ '.' :: (b ++ '.' :: (c ++ optTail pr bm))) = .ok v) ∨
    parseVersion (a ++ '.' :: (b ++ '.' :: (c ++ optTail pr bm))) = .error .overflow := by
  have hdot : ∀ x : List Char, ∀ ch ∈ (('.' :: x) : List Char).head?, isDigitC ch = false := by
    intro x ch hch
    simp at hch
    subst hch
    decide
  have h1 := parseNum_app ha (hdot (b ++ '.' :: (c ++ optTail pr bm)))
  have h2 := parseNum_app hb (hdot (c ++ optTail pr bm))
  have h3 := parseNum_app hc (optTail_head_not_digit pr bm)
  by_cases ca : digitsToNat a < U64
  · rw [if_pos ca] at h1
    by_cases cb : digitsToNat b < U64
    · rw [if_pos cb] at h2
      by_cases cc : digitsToNat c < U64
      · rw [if_pos cc] at h3
        refine Or.inl ⟨⟨digitsToNat a, digitsToNat b, digitsToNat c,
          pr.getD [], bm.getD []⟩, ?_⟩
        simp only [parseVersion, h1, h2, h3, parseTail_roundtrip pr bm hp hm]
      · rw [if_neg cc] at h3
        refine Or.inr ?_
        simp only [parseVersion, h1, h2, h3]
    · rw [if_neg cb] at h2
      refine Or.inr ?_
      simp only [parseVersion, h1, h2]
  · rw [if_neg ca] at h1
    refine Or.inr ?_
    simp only [parseVersion, h1]

/-! ### Round-trip lemmas: rendered comparators are accepted -/
theorem stripEq_not_eq {d : Char} (rest : List Char) (h : d.toNat ≠ 61) :
    stripEq (d :: rest) = d :: rest := by
  have h61 : ('=').toNat = 61 := by decide
  have : d ≠ '=' := ne_of_toNat_ne (by omega)
  simp [stripEq, this]

theorem parseOp_render (op : ComparatorOp) (rest : List Char)
    (h : ∀ c ∈ rest.head?, isDigitC c = true) :
    parseOp (op.render ++ rest) = rest := by
  have hstrip : stripEq rest = rest := by
    cases rest with
    | nil => rfl
    | cons d rest2 =>
      have hd := isDigitC_toNat (h d (by simp))
      exact stripEq_not_eq rest2 (by omega)
  have heq1 : ∀ r : List Char, stripEq ('=' :: r) = r := by
    intro r
    simp [stripEq]
  cases op <;>
    simp only [ComparatorOp.render, List.cons_append, List.nil_append,
      parseOp, hstrip, heq1]

theorem toDecimal_app_cons (n : Nat) (X : List Char) :
    ∃ d rest, toDecimal n ++ X = d :: rest ∧ isDigitC d = true := by
  rcases List.exists_cons_of_ne_nil (toDecimal_ne_nil n) with ⟨d, r, hd⟩
  refine ⟨d, r ++ X, by rw [hd, List.cons_append], ?_⟩
  have hall := toDecimal_all_digit n
  rw [hd] at hall
  exact hall d (by simp)

theorem head_digit_of_toDecimal_app (n : Nat) (X : List Char) :
    ∀ c ∈ ((toDecimal n ++ X) : List Char).head?, isDigitC c = true := by
  rcases toDecimal_app_cons n X with ⟨d, r, heq, hd⟩
  rw [heq]
  intro c hc
  simp at hc
  subst hc
  exact hd

theorem digit_cons_ne_star_cons {d : Char} {rest t : List Char}
    (hd : isDigitC d = true) : d :: rest ≠ '*' :: t := by
  intro h
  simp only [List.cons.injEq] at h
  rw [h.1] at hd
  exact absurd hd (by decide)

theorem parsePatchTail_star : parsePatchTail ['*'] = .ok () := rfl

theorem parsePatchTail_num {pa : Nat} (hpa : pa < U64) (pr bm : Option (List Char))
    (hp : ∀ p ∈ pr, PreMatch p) (hm : ∀ m ∈ bm, BuildMatch m) :
    parsePatchTail (toDecimal pa ++ optTail pr bm) = .ok () := by
  rcases toDecimal_app_cons pa (optTail pr bm) with ⟨d, rest, heq, hd⟩
  have hne : toDecimal pa ++ optTail pr bm ≠ ['*'] := by
    rw [heq]
    exact digit_cons_ne_star_cons hd
  simp only [parsePatchTail, if_neg hne,
    parseNum_toDecimal hpa (optTail_head_not_digit pr bm),
    parseTail_roundtrip pr bm hp hm]

theorem parseMinorTail_starStar : parseMinorTail ['*', '.', '*'] = .ok () := rfl

theorem parseMinorTail_num {mi : Nat} (hmi : mi < U64) {l5 : List Char}
    (h5 : parsePatchTail l5 = .ok ()) :
    parseMinorTail (toDecimal mi ++ '.' :: l5) = .ok () := by
  rcases toDecimal_app_cons mi ('.' :: l5) with ⟨d, rest, heq, hd⟩
  have hne1 : toDecimal mi ++ '.' :: l5 ≠ ['*'] := by
    rw [heq]
    exact digit_cons_ne_star_cons hd
  have hne2 : toDecimal mi ++ '.' :: l5 ≠ ['*', '.', '*'] := by
    rw [heq]
    exact digit_cons_ne_star_cons hd
  have hcond : ¬(toDecimal mi ++ '.' :: l5 = ['*'] ∨
      toDecimal mi ++ '.' :: l5 = ['*', '.', '*']) := by
    intro hcon
    rcases hcon with hcon | hcon
    · exact hne1 hcon
    · exact hne2 hcon
  have hdot : ∀ c ∈ (('.' :: l5) : List Char).head?, isDigitC c = false := by
    intro c hc
    simp at hc
    subst hc
    decide
  simp only [parseMinorTail, if_neg hcond, parseNum_toDecimal hmi hdot, h5]

theorem parseComparator_render {wp wwm wwp : Option Nat} {fc : FullComparator}
    (h : FullCompProduced wp wwm wwp fc) :
    parseComparator fc.render = .ok () := by
  cases h with
  | wildcardMinor op maj hw hm =>
    have hnum := @parseNum_toDecimal maj hm ['.', '*', '.', '*']
      (by intro c hc; simp at hc; subst hc; decide)
    simp only [FullComparator.render, parseComparator,
      parseOp_render op _ (head_digit_of_toDecimal_app maj _), hnum,
      parseMinorTail_starStar]
  | wildcardPatch op maj mi hw hm hmi =>
    have hnum := @parseNum_toDecimal maj hm ('.' :: (toDecimal mi ++ ('.' :: '*' :: [])))
      (by intro c hc; simp at hc; subst hc; decide)
    simp only [FullComparator.render, parseComparator,
      parseOp_render op _ (head_digit_of_toDecimal_app maj _), hnum,
      parseMinorTail_num hmi parsePatchTail_star]
  | plain op maj mi pa pr bm hw hm hmi hpa hpr hbm =>
    have hnum := @parseNum_toDecimal maj hm
      ('.' :: (toDecimal mi ++ '.' :: (toDecimal pa ++ optTail pr bm)))
      (by intro c hc; simp at hc; subst hc; decide)
    simp only [FullComparator.render, parseComparator,
      parseOp_render op _ (head_digit_of_toDecimal_app maj _), hnum,
      parseMinorTail_num hmi (parsePatchTail_num hpa pr bm hpr hbm)]

theorem opRender_app_head (op : ComparatorOp) (X : List Char) :
    ∃ c rest, op.render ++ X = c :: rest ∧
      (c.toNat = 61 ∨ c.toNat = 62 ∨ c.toNat = 60 ∨ c.toNat = 126 ∨ c.toNat = 94) := by
  cases op with
  | Exact => exact ⟨'=', X, rfl, by decide⟩
  | Greater => exact ⟨'>', X, rfl, by decide⟩
  | GreaterEq => exact ⟨'>', '=' :: X, rfl, by decide⟩
  | Less => exact ⟨'<', X, rfl, by decide⟩
  | LessEq => exact ⟨'<', '=' :: X, rfl, by decide⟩
  | Tilde => exact ⟨'~', X, rfl, by decide⟩
  | Caret => exact ⟨'^', X, rfl, by decide⟩

theorem render_head {wp wwm wwp : Option Nat} {fc : FullComparator}
    (h : FullCompProduced wp wwm wwp fc) :
    ∃ c rest, fc.render = c :: rest ∧ c.toNat ≠ 42 := by
  cases h with
  | wildcardMinor op maj hw hm =>
    rcases opRender_app_head op (toDecimal maj ++ ('.' :: '*' :: '.' :: '*' :: [])) with
      ⟨c, r, heq, hc⟩
    exact ⟨c, r, heq, by omega⟩
  | wildcardPatch op maj mi hw hm hmi =>
    rcases opRender_app_head op (toDecimal maj ++ '.' :: (toDecimal mi ++ ('.' :: '*' :: []))) with
      ⟨c, r, heq, hc⟩
    exact ⟨c, r, heq, by omega⟩
  | plain op maj mi pa pr bm hw hm hmi hpa hpr hbm =>
    rcases opRender_app_head op (toDecimal maj ++ '.' :: (toDecimal mi ++ '.' ::
      (toDecimal pa ++ optTail pr bm))) with ⟨c, r, heq, hc⟩
    exact ⟨c, r, heq, by omega⟩

theorem render_ne_star {wp wwm wwp : Option Nat} {fc : FullComparator}
    (h : FullCompProduced wp wwm wwp fc) : fc.render ≠ ['*'] := by
  rcases render_head h with ⟨c, r, heq, hc⟩
  rw [heq]
  intro hcon
  simp only [List.cons.injEq] at hcon
  rw [hcon.1] at hc
  exact hc (by decide)

theorem ne_comma_of_identDot {c : Char} (h : isIdentDotChar c = true) : c ≠ ',' := by
  apply ne_of_toNat_ne
  have h44 : (',').toNat = 44 := by decide
  simp only [isIdentDotChar, Bool.or_eq_true, decide_eq_true_eq] at h
  rcases h with h | h
  · rcases isAlphaNumDash_toNat h with h | h | h | h <;> omega
  · omega

theorem ne_comma_of_digit {c : Char} (h : isDigitC c = true) : c ≠ ',' := by
  apply ne_of_toNat_ne
  have h44 : (',').toNat = 44 := by decide
  have := isDigitC_toNat h
  omega

theorem optTail_no_comma {pr bm : Option (List Char)}
    (hp : ∀ p ∈ pr, PreMatch p) (hm : ∀ m ∈ bm, BuildMatch m) :
    ∀ c ∈ optTail pr bm, c ≠ ',' := by
  cases pr with
  | none =>
    cases bm with
    | none => simp [optTail]
    | some m =>
      intro c hc
      simp only [optTail, List.mem_cons] at hc
      rcases hc with rfl | hc
      · decide
      · exact ne_comma_of_identDot (buildMatch_all (hm m (by simp)) c hc)
  | some p =>
    cases bm with
    | none =>
      intro c hc
      simp only [optTail, List.mem_cons] at hc
      rcases hc with rfl | hc
      · decide
      · exact ne_comma_of_identDot (preMatch_all (hp p (by simp)) c hc)
    | some m =>
      intro c hc
      simp only [optTail, List.mem_cons, List.mem_append] at hc
      rcases hc with rfl | hc | rfl | hc2
      · decide
      · exact ne_comma_of_identDot (preMatch_all (hp p (by simp)) c hc)
      · decide
      · exact ne_comma_of_identDot (buildMatch_all (hm m (by simp)) c hc2)

theorem opRender_no_comma (op : ComparatorOp) : ∀ c ∈ op.render, c ≠ ',' := by
  cases op <;> decide

theorem render_no_comma {wp wwm wwp : Option Nat} {fc : FullComparator}
    (h : FullCompProduced wp wwm wwp fc) : ∀ c ∈ fc.render, c ≠ ',' := by
  cases h with
  | wildcardMinor op maj hw hm =>
    intro c hc
    simp only [FullComparator.render] at hc
    rcases List.mem_append.mp hc with hc | hc
    · exact opRender_no_comma op c hc
    · rcases List.mem_append.mp hc with hc | hc
      · exact ne_comma_of_digit (toDecimal_all_digit maj c hc)
      · simp at hc
        rcases hc with rfl | rfl | rfl | rfl <;> decide
  | wildcardPatch op maj mi hw hm hmi =>
    intro c hc
    simp only [FullComparator.render] at hc
    rcases List.mem_append.mp hc with hc | hc
    · exact opRender_no_comma op c hc
    · rcases List.mem_append.mp hc with hc | hc
      · exact ne_comma_of_digit (toDecimal_all_digit maj c hc)
      · rcases List.mem_cons.mp hc with rfl | hc
        · decide
        · rcases List.mem_append.mp hc with hc | hc
          · exact ne_comma_of_digit (toDecimal_all_digit mi c hc)
          · simp at hc
            rcases hc with rfl | rfl <;> decide
  | plain op maj mi pa pr bm hw hm hmi hpa hpr hbm =>
    intro c hc
    simp only [FullComparator.render] at hc
    rcases List.mem_append.mp hc with hc | hc
    · exact opRender_no_comma op c hc
    · rcases List.mem_append.mp hc with hc | hc
      · exact ne_comma_of_digit (toDecimal_all_digit maj c hc)
      · rcases List.mem_cons.mp hc with rfl | hc
        · decide
        · rcases List.mem_append.mp hc with hc | hc
          · exact ne_comma_of_digit (toDecimal_all_digit mi c hc)
          · rcases List.mem_cons.mp hc with rfl | hc
            · decide
            · rcases List.mem_append.mp hc with hc | hc
              · exact ne_comma_of_digit (toDecimal_all_digit pa c hc)
              · exact optTail_no_comma hpr hbm c hc

theorem comparatorsOk_all {segs : List (List Char)}
    (h : ∀ s ∈ segs, parseComparator s = .ok ()) : comparatorsOk segs = .ok () := by
  induction segs with
  | nil => rfl
  | cons s rest ih =>
    simp only [comparatorsOk, h s (by simp)]
    exact ih (fun t ht => h t (by simp [ht]))

theorem parseVersionReq_single {wp wwm wwp : Option Nat} {fc : FullComparator}
    (h : FullCompProduced wp wwm wwp fc) :
    parseVersionReq fc.render = .ok () := by
  have hne := render_ne_star h
  have hsingle : splitSep ',' fc.render = [fc.render] :=
    splitSep_single (render_no_comma h)
  have hok := parseComparator_render h
  simp [parseVersionReq, if_neg hne, hsingle,
    MAX_COMPARATORS_IN_VERSION_REQ_STRING, comparatorsOk, hok]

theorem joinSep_renders_ne_star {l : List FullComparator}
    (hall : ∀ fc ∈ l, FullCompProduced none none none fc) (hne : l ≠ []) :
    joinSep ',' (l.map FullComparator.render) ≠ ['*'] := by
  cases l with
  | nil => exact absurd rfl hne
  | cons fc rest =>
    rcases render_head (hall fc (by simp)) with ⟨c, r, heq, hc⟩
    cases rest with
    | nil =>
      simp only [List.map, joinSep, heq]
      intro hcon
      simp only [List.cons.injEq] at hcon
      rw [hcon.1] at hc
      exact hc (by decide)
    | cons fc2 rest2 =>
      simp only [List.map, joinSep_cons, heq, List.cons_append]
      intro hcon
      simp only [List.cons.injEq] at hcon
      rw [hcon.1] at hc
      exact hc (by decide)

theorem parseVersionReq_compVec {maxC : Nat} {ww wl : Option Nat} {cv : ComparatorVec}
    (h1 : 1 ≤ maxC) (h2 : maxC ≤ 32) (h : CompVecProduced maxC ww wl cv) :
    parseVersionReq (renderCompVec cv) = .ok () := by
  cases h with
  | wildcard hw => rfl
  | list l hw hl =>
    obtain ⟨hlen, hall⟩ := hl
    have hlnil : l ≠ [] := by
      intro he
      rw [he] at hlen
      simp at hlen
      omega
    have hmapnil : l.map FullComparator.render ≠ [] := by
      simpa using hlnil
    have hnostar := joinSep_renders_ne_star hall hlnil
    have hsplit : splitSep ',' (joinSep ',' (l.map FullComparator.render))
        = l.map FullComparator.render := by
      refine splitSep_joinSep hmapnil ?_
      intro s hs
      rcases List.mem_map.mp hs with ⟨fc, hfc, rfl⟩
      exact render_no_comma (hall fc hfc)
    have h32 : ¬(MAX_COMPARATORS_IN_VERSION_REQ_STRING <
        (l.map FullComparator.render).length) := by
      rw [List.length_map, hlen]
      simp only [MAX_COMPARATORS_IN_VERSION_REQ_STRING]
      omega
    simp only [renderCompVec, parseVersionReq, if_neg hnostar, hsplit, if_neg h32]
    refine comparatorsOk_all ?_
    intro s hs
    rcases List.mem_map.mp hs with ⟨fc, hfc, rfl⟩
    exact parseComparator_render (hall fc hfc)

theorem fullCompProduced_ne_wildcard {wp wwm wwp : Option Nat}
    {fc : FullComparator} (h : FullCompProduced wp wwm wwp fc) :
    fc ≠ FullComparator.Wildcard := by
  cases h <;> simp

/-! ## The claims -/
/-- C1: every string produced by `arb_semver` — that is, every string of the
`SEMVER_REGEX` language — is ASCII-only, and the modelled oracle `Version`
parser either succeeds on it or fails with exactly the numeric-overflow
cause; no other failure occurs. -/
theorem C1_semver_regex_ascii_parse {l : List Char} (h : SemverMatch l) :
    (∀ ch ∈ l, isAsciiC ch = true) ∧
    ((∃ v, parseVersion l = .ok v) ∨ parseVersion l = .error .overflow) := by
  cases h with
  | mk a b c pr bm ha hb hc hpr hbm =>
    exact ⟨semverMatch_ascii ha hb hc hpr hbm,
      parseVersion_semverMatch ha hb hc hpr hbm⟩

/-- Witness for C1 at the concrete generated string `1.0.0-a`. -/
theorem C1_witness :
    (∀ ch ∈ (['1', '.', '0', '.', '0', '-', 'a'] : List Char), isAsciiC ch = true) ∧
    ((∃ v, parseVersion ['1', '.', '0', '.', '0', '-', 'a'] = .ok v) ∨
      parseVersion ['1', '.', '0', '.', '0', '-', 'a'] = .error .overflow) :=
  C1_semver_regex_ascii_parse (by
    have := SemverMatch.mk ['1'] ['0'] ['0'] (some ['a']) none (by decide) (by decide)
      (by decide)
      (by intro p hp; simp at hp; subst hp; exact PreMatch.single _ (by decide))
      (by intro m hm; simp at hm)
    simpa [optTail] using this)

/-- C2 counterexample: `max_comparators = 0` is admitted by the claim's
"at most 32", and `arb_full_comparator_vec 0` can produce `List []`, which
renders to the empty string; the oracle rejects an empty requirement
string, so the claim as stated fails (and the `unwrap` inside
`arb_version_req` can panic there). -/
theorem C2_counterexample :
    CompVecProduced 0 none none (ComparatorVec.List []) ∧
    parseVersionReq (renderCompVec (ComparatorVec.List [])) = .error .invalid := by
  constructor
  · exact CompVecProduced.list [] (by decide) ⟨rfl, by simp⟩
  · rfl

/-- C2 (amended): rendering any `FullComparator` produced by
`arb_full_comparator` and parsing it as a requirement succeeds, and
rendering any `ComparatorVec` produced by `arb_full_comparator_vec`
succeeds provided `1 ≤ max_comparators ≤ 32`; the excluded
`max_comparators = 0` case renders `List []` to the empty string, which
the oracle rejects. -/
theorem C2_roundtrip_requirement :
    (∀ (wp wwm wwp : Option Nat) (fc : FullComparator),
      FullCompProduced wp wwm wwp fc → parseVersionReq fc.render = .ok ()) ∧
    (∀ (maxC : Nat) (ww wl : Option Nat) (cv : ComparatorVec),
      1 ≤ maxC → maxC ≤ 32 → CompVecProduced maxC ww wl cv →
      parseVersionReq (renderCompVec cv) = .ok ()) :=
  ⟨fun _ _ _ _ h => parseVersionReq_single h,
    fun _ _ _ _ h1 h2 h => parseVersionReq_compVec h1 h2 h⟩

/-- Witness for C2 at a concrete comparator and a concrete one-element
comparator list. -/
theorem C2_witness :
    parseVersionReq ((FullComparator.WildcardMinor ComparatorOp.Greater 0).render) =
      .ok () ∧
    parseVersionReq (renderCompVec
      (ComparatorVec.List [FullComparator.WildcardMinor ComparatorOp.Greater 0])) =
      .ok () :=
  ⟨C2_roundtrip_requirement.1 none none none _
      (FullCompProduced.wildcardMinor _ _ (by decide) (by decide)),
    C2_roundtrip_requirement.2 1 none none _ (by decide) (by decide)
      (CompVecProduced.list _ (by decide) ⟨rfl, by
        intro fc hfc
        simp at hfc
        subst hfc
        exact FullCompProduced.wildcardMinor _ _ (by decide) (by decide)⟩)⟩

/-- C3: `arb_full_comparator` never produces the bare `Wildcard` variant,
for any weight arguments, and every `List` produced by
`arb_full_comparator_vec` contains no `Wildcard`-variant comparator. -/
theorem C3_no_wildcard_variant :
    (∀ (wp wwm wwp : Option Nat) (fc : FullComparator),
      FullCompProduced wp wwm wwp fc → fc ≠ FullComparator.Wildcard) ∧
    (∀ (maxC : Nat) (ww wl : Option Nat) (l : List FullComparator),
      CompVecProduced maxC ww wl (ComparatorVec.List l) →
      ∀ fc ∈ l, fc ≠ FullComparator.Wildcard) := by
  refine ⟨fun _ _ _ _ h => fullCompProduced_ne_wildcard h, ?_⟩
  intro maxC ww wl l h fc hfc
  cases h with
  | list l2 hw hl => exact fullCompProduced_ne_wildcard (hl.2 fc hfc)

/-- Witness for C3 at a concrete produced comparator and comparator list. -/
theorem C3_witness :
    FullComparator.WildcardMinor ComparatorOp.Exact 0 ≠ FullComparator.Wildcard ∧
    ∀ fc ∈ ([FullComparator.WildcardMinor ComparatorOp.Exact 0] :
      List FullComparator), fc ≠ FullComparator.Wildcard :=
  ⟨C3_no_wildcard_variant.1 none none none _
      (FullCompProduced.wildcardMinor _ _ (by decide) (by decide)),
    C3_no_wildcard_variant.2 1 none none _
      (CompVecProduced.list _ (by decide) ⟨rfl, by
        intro fc hfc
        simp at hfc
        subst hfc
        exact FullCompProduced.wildcardMinor _ _ (by decide) (by decide)⟩)⟩

/-- C4 counterexample: at `max_comparators = 1` the generator can produce a
`List` of exactly one comparator, and `1 < 1` fails — the claimed
exclusive upper bound `length < max_comparators` is violated. -/
theorem C4_counterexample :
    CompVecProduced 1 none none
      (ComparatorVec.List [FullComparator.WildcardMinor ComparatorOp.Exact 0]) ∧
    ¬ ([FullComparator.WildcardMinor ComparatorOp.Exact 0].length < 1) := by
  constructor
  · exact CompVecProduced.list _ (by decide) ⟨rfl, by
      intro fc hfc
      simp at hfc
      subst hfc
      exact FullCompProduced.wildcardMinor _ _ (by decide) (by decide)⟩
  · simp

/-- C4 (amended): whenever `arb_full_comparator_vec(max_comparators, _, _)`
produces a `ComparatorVec::List`, the list holds exactly `max_comparators`
comparators: the proptest `vec` size argument is a plain `usize`, i.e. an
exact size, not the half-open range the claim describes. -/
theorem C4_list_length_exact (maxC : Nat) (ww wl : Option Nat)
    (l : List FullComparator)
    (h : CompVecProduced maxC ww wl (ComparatorVec.List l)) :
    l.length = maxC := by
  cases h with
  | list l2 hw hl => exact hl.1

/-- Witness for C4 at a concrete one-element list with
`max_comparators = 1`. -/
theorem C4_witness :
    [FullComparator.WildcardMinor ComparatorOp.Exact 1].length = 1 :=
  C4_list_length_exact 1 none none _
    (CompVecProduced.list _ (by decide) ⟨rfl, by
      intro fc hfc
      simp at hfc
      subst hfc
      exact FullCompProduced.wildcardMinor _ _ (by decide) (by decide)⟩)

/-- C5 counterexample: no comparator produced by `arb_semver_comparator`
has an absent/empty pre-release, contradicting the claim's "for some
generated comparators the pre-release field is absent/empty" — the
generator draws its pre-release from the always-nonempty
`ALWAYS_PRERELEASE_REGEX` language. -/
theorem C5_counterexample :
    (∃ c : SemverComparator, SemverComparatorProduced c ∧ c.pre = []) = False := by
  refine eq_false ?_
  rintro ⟨c, ⟨hop, hmaj, hmi, hpa, hpre⟩, hemp⟩
  exact preMatch_ne_nil hpre hemp

/-- C5 (amended): in `arb_semver_comparator` the major is always present,
minor and patch are independently optional (all four presence combinations
are producible), but the pre-release is never absent: every produced
comparator carries a nonempty pre-release string. -/
theorem C5_comparator_fields :
    (∀ c : SemverComparator, SemverComparatorProduced c → c.pre ≠ []) ∧
    (∀ mo po : Bool, ∃ c : SemverComparator, SemverComparatorProduced c ∧
      c.minor.isSome = mo ∧ c.patch.isSome = po) := by
  constructor
  · intro c hc
    exact preMatch_ne_nil hc.2.2.2.2
  · intro mo po
    have hopt : ∀ t : Bool, ∀ n ∈ (if t then some 0 else none : Option Nat), n < U64 := by
      intro t n hn
      cases t with
      | false => simp at hn
      | true =>
        simp at hn
        subst hn
        decide
    have hsome : ∀ t : Bool, (if t then some 0 else none : Option Nat).isSome = t := by
      intro t
      cases t <;> simp
    exact ⟨⟨Op.Exact, 0, if mo then some 0 else none,
      if po then some 0 else none, ['a']⟩,
      ⟨OpProduced.exact (by decide), (by decide : (0 : Nat) < U64), hopt mo, hopt po,
        PreMatch.single ['a'] (by decide)⟩, hsome mo, hsome po⟩

/-- Witness for C5 at a concrete produced comparator. -/
theorem C5_witness :
    ((⟨Op.Exact, 0, none, none, ['a']⟩ : SemverComparator).pre = []) = False :=
  eq_false (C5_comparator_fields.1 _
    ⟨OpProduced.exact (by decide), by decide, by simp, by simp,
      PreMatch.single _ (by decide)⟩)

/-- C6: a `WildcardPatch` stores an operator and two numeric fields, and
its `Display` rendering places the second stored numeric field in the
minor text position, yielding `op major.minor.*` exactly as the spec's
wording describes. -/
theorem C6_wildcardPatch_display (op : ComparatorOp) (major minor : Nat) :
    (FullComparator.WildcardPatch op major minor).render =
      wildcardPatchSpecForm op major minor := by
  simp [FullComparator.render, wildcardPatchSpecForm]

/-- C7: calling `arb_semver_op` with `default_weight = 0` and
`wildcard_weight = 1` always and only yields the `Wildcard` operator: the
zero weight excludes the seven default-weighted branches while the
wildcard branch stays reachable, so a zero weight causes no failure. -/
theorem C7_zero_default_weight_wildcard (op : Op) :
    OpProduced (some 0) (some 1) op ↔ op = Op.Wildcard := by
  constructor
  · intro h
    cases h <;> first | rfl | (rename_i hw; simp [optW] at hw)
  · intro h
    subst h
    exact OpProduced.wildcard (by decide)

/-- C8: for every `max_len ≥ 2`, each of the four bounded sequence
generators yields a vector of length at least 1 and strictly less than
`max_len`. -/
theorem C8_vec_length_bounds (maxLen : Nat) (_hml : 2 ≤ maxLen) :
    (∀ l, VecVersionsProduced maxLen l → 1 ≤ l.length ∧ l.length < maxLen) ∧
    (∀ l, VecSemverVersionsProduced maxLen l → 1 ≤ l.length ∧ l.length < maxLen) ∧
    (∀ l, VecSemverComparatorProduced maxLen l → 1 ≤ l.length ∧ l.length < maxLen) ∧
    (∀ l, VecComparatorStringProduced maxLen l → 1 ≤ l.length ∧ l.length < maxLen) :=
  ⟨fun _ h => ⟨h.1, h.2.1⟩, fun _ h => ⟨h.1, h.2.1⟩, fun _ h => ⟨h.1, h.2.1⟩,
    fun _ h => ⟨h.1, h.2.1⟩⟩

/-- Witness for C8 at `max_len = 2` with concrete one-element vectors from
each of the four generators. -/
theorem C8_witness :
    (1 ≤ ([⟨0, 0, 0, [], []⟩] : List SemVersion).length ∧
      ([⟨0, 0, 0, [], []⟩] : List SemVersion).length < 2) ∧
    (1 ≤ ([⟨1, 2, 3, ['a'], []⟩] : List SemVersion).length ∧
      ([⟨1, 2, 3, ['a'], []⟩] : List SemVersion).length < 2) ∧
    (1 ≤ ([⟨Op.Exact, 0, none, none, ['a']⟩] : List SemverComparator).length ∧
      ([⟨Op.Exact, 0, none, none, ['a']⟩] : List SemverComparator).length < 2) ∧
    (1 ≤ ([(FullComparator.WildcardMinor ComparatorOp.Exact 0).render] :
        List (List Char)).length ∧
      ([(FullComparator.WildcardMinor ComparatorOp.Exact 0).render] :
        List (List Char)).length < 2) := by
  refine ⟨(C8_vec_length_bounds 2 (by decide)).1 _ ⟨by decide, by decide, ?_⟩,
    (C8_vec_length_bounds 2 (by decide)).2.1 _ ⟨by decide, by decide, ?_⟩,
    (C8_vec_length_bounds 2 (by decide)).2.2.1 _ ⟨by decide, by decide, ?_⟩,
    (C8_vec_length_bounds 2 (by decide)).2.2.2 _ ⟨by decide, by decide, ?_⟩⟩
  · intro v hv
    simp only [List.mem_singleton] at hv
    subst hv
    exact ⟨0, 0, 0, none, none, by decide, by decide, by decide,
      by simp, by simp, rfl⟩
  · intro v hv
    simp only [List.mem_singleton] at hv
    subst hv
    refine ⟨by decide, by decide, by decide, Or.inr ?_, Or.inl rfl⟩
    exact PreMatch.single _ (by decide)
  · intro c hc
    simp only [List.mem_singleton] at hc
    subst hc
    exact ⟨OpProduced.exact (by decide), by decide, by simp, by simp,
      PreMatch.single _ (by decide)⟩
  · intro s hs
    simp only [List.mem_singleton] at hs
    subst hs
    exact ⟨_, FullCompProduced.wildcardMinor _ _ (by decide) (by decide), rfl⟩

/-- C9: every string of the `ALWAYS_PRERELEASE_REGEX` language is accepted
by the oracle's `Prerelease` constructor and every string of the
`ALWAYS_BUILD_METADATA_REGEX` language by its `BuildMetadata` constructor,
so the `unwrap` calls in `arb_semver_prerelease`,
`arb_option_semver_prerelease`, `arb_semver_build_metadata` and
`arb_option_semver_build_metadata` never panic. -/
theorem C9_prerelease_build_constructors {l m : List Char}
    (hl : PreMatch l) (hm : BuildMatch m) :
    (prereleaseNew l).isSome = true ∧ (buildMetadataNew m).isSome = true := by
  constructor
  · simp [prereleaseNew, validPre_of_preMatch hl]
  · simp [buildMetadataNew, validBuild_of_buildMatch hm]

/-- Witness for C9 at the concrete pre-release `a` and build metadata
`00`. -/
theorem C9_witness :
    (prereleaseNew ['a']).isSome = true ∧
    (buildMetadataNew ['0', '0']).isSome = true :=
  C9_prerelease_build_constructors (PreMatch.single _ (by decide))
    (BuildMatch.single _ (by decide))

/-- C10: the `Version::parse(...).unwrap()` inside `arb_version_weighted`
never panics: for `u64` components and grammar-valid optional suffixes,
the formatted string always parses to exactly the expected version. -/
theorem C10_version_weighted_parse {a b c : Nat} (ha : a < U64) (hb : b < U64)
    (hc : c < U64) (pr bm : Option (List Char))
    (hp : ∀ p ∈ pr, PreMatch p) (hm : ∀ m ∈ bm, BuildMatch m) :
    parseVersion (fmtVersion a b c pr bm) =
      .ok ⟨a, b, c, pr.getD [], bm.getD []⟩ :=
  parseVersion_fmt ha hb hc pr bm hp hm

/-- Witness for C10 at the concrete formatted string `1.0.0-a`. -/
theorem C10_witness :
    parseVersion (fmtVersion 1 0 0 (some ['a']) none) =
      .ok ⟨1, 0, 0, ['a'], []⟩ :=
  C10_version_weighted_parse (by decide) (by decide) (by decide) (some ['a']) none
    (by intro p hp; simp at hp; subst hp; exact PreMatch.single _ (by decide))
    (by intro m hm; simp at hm)
